import Mathlib

/-!
Verification of the Lambolt parser-combinator library (src/Parser.ts).

The embedding models JavaScript strings as `List Char` and the parser type
`Parser<A> = (state: State) => [State, A]` as a state function into `Except`:
a thrown parse error is `PError.thrown msg` carrying the thrown string.
Recursions of the source that are not structurally bounded (the repeated
trivia-skipping loop, `until`, and the demonstration grammar `sbt`) are
modelled with an explicit fuel argument; running out of fuel yields the
distinguished value `PError.fuel`, which no source combinator ever produces,
so divergence of the source recursion is visible as a fuel error at every
fuel value.  Each definition follows the corresponding source function
line by line.
-/

set_option maxHeartbeats 1000000

namespace Lambolt

/-- Cursor state: the source text and the scan offset, as in
type State = \x7bcode: string, index: number\x7d. -/
structure State where
  code : List Char
  index : Nat
  deriving DecidableEq, Repr

/-- Outcome of an aborted parse: a thrown diagnostic string, or exhaustion of
the fuel that bounds a source recursion in this embedding. -/
inductive PError where
  | thrown : List Char → PError
  | fuel : PError
  deriving DecidableEq, Repr

/-- Parser of the source, with thrown errors made explicit. -/
abbrev Parser (A : Type) : Type := State → Except PError (State × A)

/-- Monadic binder (function bind of the source). -/
def bind {A B : Type} (a_par : Parser A) (b_par : A → Parser B) : Parser B :=
  fun state =>
    match a_par state with
    | .error e => .error e
    | .ok (state, a_value) => b_par a_value state

/-- Monadic return (function pure of the source). -/
def pure {A : Type} (a : A) : Parser A :=
  fun state => .ok (state, a)

/-- Evaluates a parser and returns its result, but reverts its effect
(function dry of the source). -/
def dry {A : Type} (parser : Parser A) : Parser A :=
  fun state =>
    match parser state with
    | .error e => .error e
    | .ok (_, result) => .ok (state, result)

/-- Character class of the JavaScript regex \s used by skip_spaces. -/
def isJsSpace (c : Char) : Bool :=
  c = ' ' || c = '\t' || c = '\n' || c = '\r' || c = '\x0b' || c = '\x0c' ||
  c = '\u00A0' || c = '\u1680' || (0x2000 ≤ c.toNat && c.toNat ≤ 0x200A) ||
  c = '\u2028' || c = '\u2029' || c = '\u202F' || c = '\u205F' || c = '\u3000' ||
  c = '\uFEFF'

/-- Whitespace test of the source at a given offset; out-of-range access gives
undefined, which the regex test treats as not-whitespace. -/
def isSpaceAt (code : List Char) (i : Nat) : Bool :=
  match code[i]? with
  | some c => isJsSpace c
  | none => false

/-- While loop of skip_spaces, recursing over the text suffix that remains at
the cursor; returns the offset of the first non-space position. -/
def spaceScanAux : List Char → Nat → Nat
  | [], i => i
  | c :: rest, i => if isJsSpace c then spaceScanAux rest (i + 1) else i

/-- While loop of skip_comment: advance to the end of the line or of the text,
recursing over the suffix at the cursor. -/
def commentScanAux : List Char → Nat → Nat
  | [], i => i
  | c :: rest, i => if c = '\n' then i else commentScanAux rest (i + 1)

/-- Skips a comment introduced by two slashes through end of line
(skip_comment of the source); never throws, so it is a plain state function. -/
def skip_comment (s : State) : State × Bool :=
  if (s.code.drop s.index).take 2 = ['/', '/'] then
    (⟨s.code, commentScanAux (s.code.drop (s.index + 2)) (s.index + 2)⟩, true)
  else
    (s, false)

/-- Skips a maximal run of whitespace (skip_spaces of the source). -/
def skip_spaces (s : State) : State × Bool :=
  (⟨s.code, spaceScanAux (s.code.drop s.index) s.index⟩, isSpaceAt s.code s.index)

/-- Loop of skip: comment-skip then space-skip, repeated until an iteration
skips nothing.  The fuel argument bounds the number of iterations; each
iteration that recurses strictly advances the cursor within the text, so
code.length + 1 iterations always suffice (theorem skipGo_fix below shows the
state this returns under that fuel is trivia-free, i.e. the loop really has
exited). -/
def skipGo : Nat → State → State × Bool
  | 0, s => (s, false)
  | n + 1, s =>
    let (s₁, comment) := skip_comment s
    let (s₂, spaces) := skip_spaces s₁
    if comment || spaces then ((skipGo n s₂).1, true) else (s₂, false)

/-- Skips whitespace and comments (function skip of the source). -/
def skip (s : State) : State × Bool :=
  skipGo (s.code.length + 1) s

/-- Attempts to match a string right at the cursor (match_here of the
source): on success consume it and return true, otherwise return false. -/
def match_here (str : List Char) : Parser Bool :=
  fun state =>
    if (state.code.drop state.index).take str.length = str then
      .ok (⟨state.code, state.index + str.length⟩, true)
    else
      .ok (state, false)

/-- Like match_here, but skipping spaces and comments before (the string
branch of function match of the source; the claims under verification only
exercise string matchers, so the regex branch is not modelled). -/
def match_str (str : List Char) : Parser Bool :=
  fun state => match_here str (skip state).1

/-- JavaScript String.split on the newline character: splitting an empty text
gives one empty segment, and a trailing newline produces a trailing empty
segment. -/
def splitNl : List Char → List (List Char)
  | [] => [[]]
  | c :: rest =>
    if c = '\n' then [] :: splitNl rest
    else
      match splitNl rest with
      | [] => [[c]]
      | l :: ls => (c :: l) :: ls

/-- Scan of JavaScript String.indexOf, carrying the current position. -/
def jsIndexOfAux (c : Char) : List Char → Nat → Int
  | [], _ => -1
  | x :: rest, i => if x = c then (i : Int) else jsIndexOfAux c rest (i + 1)

/-- JavaScript String.indexOf for a single character: first occurrence, or -1
when absent. -/
def jsIndexOf (l : List Char) (c : Char) : Int :=
  jsIndexOfAux c l 0

/-- JavaScript String.slice with two arguments: negative positions count from
the end, and both are clamped to the text. -/
def jsSliceI (l : List Char) (a b : Int) : List Char :=
  let n : Int := (l.length : Int)
  let st := if a < 0 then max (n + a) 0 else min a n
  let en := if b < 0 then max (n + b) 0 else min b n
  (l.drop st.toNat).take (en - st).toNat

/-- JavaScript String.slice with one argument. -/
def jsSlice1 (l : List Char) (a : Int) : List Char :=
  jsSliceI l a (l.length : Int)

/-- Line-number prefix of the highlighter: four spaces are prepended to the
decimal line number and the last four characters are kept, right-aligning
numbers of up to four digits. -/
def fmt4 (n : Nat) : List Char :=
  jsSlice1 ("    ".toList ++ (Nat.repr n).toList) (-4)

/-- Number of newline characters strictly before a given offset; this is the
line on which the offset falls (the two counting loops of highlight). -/
def hl_from_line (i : Nat) (code : List Char) : Nat :=
  (code.take i).count '\n'

/-- Text with the sentinel markers inserted around the highlighted span
(variable colored of highlight). -/
def hl_colored (from_index to_index : Nat) (code : List Char) : List Char :=
  code.take from_index ++ ['«'] ++ (code.drop from_index).take (to_index - from_index) ++
    ['»'] ++ code.drop to_index

/-- Rendering loop of highlight: one retained line per step, transformed
according to its position relative to the span's first and last lines and
prefixed with the aligned line number, exactly as the for loop of the
source. -/
def hlGo (fl tl : Nat) : Nat → List (List Char) → List Char
  | _, [] => []
  | numb, l :: rest =>
    let oc := "\x1b[4m\x1b[31m".toList
    let cc := "\x1b[0m".toList
    let line := l ++ ['\n']
    let line :=
      if numb = fl ∧ numb = tl then
        jsSliceI line 0 (jsIndexOf line '«') ++ oc ++
          jsSliceI line (jsIndexOf line '«') (jsIndexOf line '»' + 1) ++ cc ++
          jsSlice1 line (jsIndexOf line '»' + 1)
      else if numb = fl then
        jsSliceI line 0 (jsIndexOf line '«') ++ oc ++ jsSlice1 line (jsIndexOf line '«') ++ cc
      else if fl < numb ∧ numb < tl then
        oc ++ line ++ cc
      else if numb = tl then
        oc ++ jsSliceI line 0 (jsIndexOf line '»' + 1) ++ cc ++
          jsSlice1 line (jsIndexOf line '»' + 1)
      else line
    (fmt4 numb ++ " | ".toList ++ line) ++ hlGo fl tl (numb + 1) rest

/-- Pretty highlights a slice of the code between two given indexes (function
highlight of the source). -/
def highlight (from_index to_index : Nat) (code : List Char) : List Char :=
  let from_line := hl_from_line from_index code
  let to_line := hl_from_line to_index code
  let lines := splitNl (hl_colored from_index to_index code)
  let block_from_line := from_line - 3
  let block_to_line := min (to_line + 3) lines.length
  hlGo from_line to_line block_from_line
    ((lines.drop block_from_line).take (block_to_line - block_from_line))

/-- Per-line transformation applied by the highlighter to a retained line,
stated separately from the loop so that the structure of the output can be
asserted about highlight as a whole. -/
def hl_render (fl tl numb : Nat) (line : List Char) : List Char :=
  if numb = fl ∧ numb = tl then
    jsSliceI line 0 (jsIndexOf line '«') ++ "\x1b[4m\x1b[31m".toList ++
      jsSliceI line (jsIndexOf line '«') (jsIndexOf line '»' + 1) ++ "\x1b[0m".toList ++
      jsSlice1 line (jsIndexOf line '»' + 1)
  else if numb = fl then
    jsSliceI line 0 (jsIndexOf line '«') ++ "\x1b[4m\x1b[31m".toList ++
      jsSlice1 line (jsIndexOf line '«') ++ "\x1b[0m".toList
  else if fl < numb ∧ numb < tl then
    "\x1b[4m\x1b[31m".toList ++ line ++ "\x1b[0m".toList
  else if numb = tl then
    "\x1b[4m\x1b[31m".toList ++ jsSliceI line 0 (jsIndexOf line '»' + 1) ++
      "\x1b[0m".toList ++ jsSlice1 line (jsIndexOf line '»' + 1)
  else line

/-- Fatal error for a missing literal (expected_string of the source): the
thrown value is the formatted diagnostic string. -/
def expected_string {A : Type} (str : List Char) : Parser A :=
  fun state =>
    .error (.thrown ("Expected \'".toList ++ str ++ "\':\n".toList ++
      highlight state.index (state.index + str.length) state.code))

/-- Fatal error for a missing construct (expected_type of the source). -/
def expected_type {A : Type} (nm : List Char) : Parser A :=
  fun state =>
    .error (.thrown ("Expected ".toList ++ nm ++ ":\n".toList ++
      highlight state.index (state.index + 1) state.code))

/-- Forces consuming a string; if the match fails, throws (function consume
of the source). -/
def consume (str : List Char) : Parser Unit :=
  fun state =>
    match match_str str state with
    | .error e => .error e
    | .ok (state, matched) =>
      if matched then .ok (state, ()) else expected_string str state

/-- Identifier character class [a-zA-Z0-9_.] of the source. -/
def isNameChar (c : Char) : Bool :=
  c.isAlphanum || c = '_' || c = '.'

/-- While loop of name_here: the maximal identifier run at the head of the
remaining text. -/
def nameScanAux : List Char → List Char
  | [] => []
  | c :: rest => if isNameChar c then c :: nameScanAux rest else []

/-- Parses a name right after the cursor (name_here of the source); the empty
name is allowed. -/
def name_here : Parser (List Char) :=
  fun state =>
    let nm := nameScanAux (state.code.drop state.index)
    .ok (⟨state.code, state.index + nm.length⟩, nm)

/-- Parses a name after skipping trivia (function name of the source). -/
def name : Parser (List Char) :=
  fun state => name_here (skip state).1

/-- JavaScript truthiness for the value types this library feeds to grammar:
the selector tests its choices with a plain if, so a present but falsy result
such as an empty string is treated like an absent one. -/
class Truthy (α : Type) where
  truthy : α → Bool

instance : Truthy Bool := ⟨fun b => b⟩

instance : Truthy (List Char) := ⟨fun s => !s.isEmpty⟩

/-- Checks a boolean parser by lookahead and, when it holds, commits to the
body (function guard of the source). -/
def guard {A : Type} (head : Parser Bool) (body : Parser A) : Parser (Option A) :=
  fun state =>
    let s₁ := (skip state).1
    match dry head s₁ with
    | .error e => .error e
    | .ok (s₂, matched) =>
      if matched then
        match body s₂ with
        | .error e => .error e
        | .ok (s₃, a) => .ok (s₃, some a)
      else .ok (s₂, none)

/-- Ordered-choice selector (function grammar of the source): the choices run
in order, threading the state; the loop returns at the first choice whose
result is truthy, and throws an expected-name error when every choice's
result is null or falsy. -/
def grammar {A : Type} [Truthy A] (nm : List Char) : List (Parser (Option A)) → Parser A
  | [] => fun state => expected_type nm state
  | c :: cs => fun state =>
    match c state with
    | .error e => .error e
    | .ok (state, got) =>
      match got with
      | some a => if Truthy.truthy a then .ok (state, a) else grammar nm cs state
      | none => grammar nm cs state

/-- Loop of function until of the source: check the delimiter; if it matches
stop with the empty sequence, otherwise run the element parser and recurse,
prepending the element's result.  The source recursion is unbounded, so it is
modelled with fuel. -/
def untilF {A : Type} : Nat → Parser Bool → Parser A → Parser (List A)
  | 0, _, _ => fun _ => .error .fuel
  | n + 1, delim, parser => fun state =>
    match delim state with
    | .error e => .error e
    | .ok (state, true) => .ok (state, [])
    | .ok (state, false) =>
      match parser state with
      | .error e => .error e
      | .ok (state, a) =>
        match untilF n delim parser state with
        | .error e => .error e
        | .ok (state, b) => .ok (state, a :: b)

/-- Instrumented copy of untilF returning how many times the element parser
ran instead of the collected results. -/
def untilCountF {A : Type} : Nat → Parser Bool → Parser A → Parser Nat
  | 0, _, _ => fun _ => .error .fuel
  | n + 1, delim, parser => fun state =>
    match delim state with
    | .error e => .error e
    | .ok (state, true) => .ok (state, 0)
    | .ok (state, false) =>
      match parser state with
      | .error e => .error e
      | .ok (state, _) =>
        match untilCountF n delim parser state with
        | .error e => .error e
        | .ok (state, k) => .ok (state, k + 1)

/-- List-like parser with an opener, separator and closer (function list of
the source): the boolean results of the opener and of the separator are bound
to a discarded variable and never examined. -/
def listF {A B : Type} (fuel : Nat) (opener sep closer : Parser Bool) (elem : Parser A)
    (make : List A → B) : Parser B :=
  fun state =>
    match opener state with
    | .error e => .error e
    | .ok (state, _) =>
      match untilF fuel closer (fun st =>
        match elem st with
        | .error e => .error e
        | .ok (st, val) =>
          match sep st with
          | .error e => .error e
          | .ok (st, _) => .ok (st, val)) state with
      | .error e => .error e
      | .ok (state, arr) => .ok (state, make arr)

/-- Probe for a call expression (function caller of the source): reads the
identifier at the cursor and then the open literal, and reports whether the
identifier was non-empty and the literal present. -/
def caller (opener : List Char) : Parser Bool :=
  fun state =>
    match name_here state with
    | .error e => .error e
    | .ok (state, nam) =>
      match match_here opener state with
      | .error e => .error e
      | .ok (state, got) => .ok (state, decide (nam.length > 0) && got)

/-- Binary tree of strings of the demonstration grammar. -/
inductive StrBinTree where
  | node : StrBinTree → StrBinTree → StrBinTree
  | leaf : List Char → StrBinTree
  deriving DecidableEq, Repr

/-- In the source a StrBinTree value is either an array (always truthy) or a
string (truthy when non-empty). -/
instance : Truthy StrBinTree :=
  ⟨fun t => match t with
    | .node _ _ => true
    | .leaf s => !s.isEmpty⟩

/-- Demonstration grammar sbt of the source, with fuel for its self
reference: a node alternative guarded by an open parenthesis, then a leaf
alternative guarded by the always-matching empty literal. -/
def sbtF : Nat → Parser StrBinTree
  | 0 => fun _ => .error .fuel
  | n + 1 => fun state =>
    let sbt_node : Parser (Option StrBinTree) :=
      guard (match_str "(".toList)
        (bind (consume "(".toList) fun _ =>
          bind (sbtF n) fun lft =>
            bind (sbtF n) fun rgt =>
              bind (consume ")".toList) fun _ =>
                pure (StrBinTree.node lft rgt))
    let sbt_name : Parser (Option StrBinTree) :=
      guard (match_str "".toList) (bind name fun nm => pure (StrBinTree.leaf nm))
    grammar "StrBinTree".toList [sbt_node, sbt_name] state

/-- Flips the boolean result of a parser while keeping its state effect;
used to state that list never inspects the booleans of its opener and
separator. -/
def flipB (p : Parser Bool) : Parser Bool :=
  fun state =>
    match p state with
    | .error e => .error e
    | .ok (state, b) => .ok (state, !b)

/-- Single-character reader that always either consumes one character or
throws at end of text; a strictly progressing element parser for the
termination theorem of untilF. -/
def readc : Parser Char :=
  fun state =>
    match state.code[state.index]? with
    | some c => .ok (⟨state.code, state.index + 1⟩, c)
    | none => .error (.thrown "eof".toList)

/-- Identifier run at the cursor, phrased over the raw text; used to state
what caller reports. -/
def callerNam (s : State) : List Char :=
  (s.code.drop s.index).takeWhile isNameChar

/-- Whether the open literal occurs immediately after the identifier run at
the cursor; used to state what caller reports. -/
def callerOpen (opener : List Char) (s : State) : Bool :=
  decide ((s.code.drop (s.index + (callerNam s).length)).take opener.length = opener)

/-! Helper lemmas. -/

theorem nameScanAux_eq_takeWhile : ∀ l : List Char, nameScanAux l = l.takeWhile isNameChar := by
  intro l
  induction l with
  | nil => rfl
  | cons c rest ih =>
    by_cases h : isNameChar c = true
    · simp [nameScanAux, List.takeWhile, h, ih]
    · simp only [Bool.not_eq_true] at h
      simp [nameScanAux, List.takeWhile, h]

/-! Claim theorems. -/

/-- Claim C5: bind and pure satisfy the three monad laws over Parser, as
functions on states: left identity, right identity and associativity. -/
theorem parser_monad_laws :
    (∀ (A B : Type) (a : A) (f : A → Parser B), bind (pure a) f = f a) ∧
    (∀ (A : Type) (p : Parser A), bind p pure = p) ∧
    (∀ (A B C : Type) (p : Parser A) (f : A → Parser B) (g : B → Parser C),
      bind (bind p f) g = bind p fun x => bind (f x) g) := by
  refine ⟨fun A B a f => rfl, fun A p => ?_, fun A B C p f g => ?_⟩
  · funext s
    cases h : p s with
    | error e => simp [bind, h]
    | ok r =>
      cases r with
      | mk s₁ a => simp [bind, pure, h]
  · funext s
    cases h : p s with
    | error e => simp [bind, h]
    | ok r =>
      cases r with
      | mk s₁ a =>
        cases h₂ : f a s₁ with
        | error e => simp [bind, h, h₂]
        | ok r₂ =>
          cases r₂ with
          | mk s₂ b => simp [bind, h, h₂]

/-- Claim C3: for every parser p and state s on which p produces a value,
dry p returns the original state s paired with that value: dry never
advances the cursor, regardless of how much p itself consumes. -/
theorem dry_keeps_state {A : Type} (p : Parser A) (s s' : State) (v : A)
    (h : p s = .ok (s', v)) : dry p s = .ok (s, v) := by
  simp [dry, h]

/-- Witness for dry_keeps_state: looking ahead at a matcher that itself
consumes one character leaves the cursor at offset 0. -/
theorem dry_keeps_state_witness :
    dry (match_here "x".toList) ⟨"xy".toList, 0⟩ = .ok (⟨"xy".toList, 0⟩, true) :=
  dry_keeps_state (match_here "x".toList) ⟨"xy".toList, 0⟩ ⟨"xy".toList, 1⟩ true rfl

/-- Claim C2: match of a literal first skips trivia; if the literal occurs
exactly at the cursor after trivia-skipping it consumes exactly its length
and returns true, otherwise it returns false and leaves the offset at the
trivia-skipped position. -/
theorem match_literal_spec (L : List Char) (s : State) :
    (((skip s).1.code.drop (skip s).1.index).take L.length = L →
      match_str L s = .ok (⟨(skip s).1.code, (skip s).1.index + L.length⟩, true)) ∧
    (((skip s).1.code.drop (skip s).1.index).take L.length ≠ L →
      match_str L s = .ok ((skip s).1, false)) := by
  constructor <;> intro h <;> simp [match_str, match_here, h]

/-- Witness for match_literal_spec: on a text with one leading space the
literal is found right after the skipped trivia and exactly its length is
consumed. -/
theorem match_literal_spec_witness :
    match_str "ab".toList ⟨" ab".toList, 0⟩ = .ok (⟨" ab".toList, 3⟩, true) :=
  (match_literal_spec "ab".toList ⟨" ab".toList, 0⟩).1 rfl

/-- Counterexample to claim C1 as stated: a choice may produce a result that
is present (not absent) and yet falsy, such as the empty string; the
selector's truthiness test then skips it and, with no further choice,
aborts with the expected-name error instead of returning the pair the
choice produced. -/
theorem grammar_skips_falsy_cex :
    (fun st => Except.ok (st, some ([] : List Char)) : Parser (Option (List Char)))
        ⟨"xy".toList, 0⟩ = .ok (⟨"xy".toList, 0⟩, some ([] : List Char)) ∧
    grammar "str".toList [fun st => Except.ok (st, some ([] : List Char))]
        ⟨"xy".toList, 0⟩ =
      .error (.thrown ("Expected str:\n".toList ++ highlight 0 1 "xy".toList)) :=
  ⟨rfl, rfl⟩

/-- Claim C1 (amended): grammar runs its choices in order, threading the
state; it returns the pair produced by the first choice whose result is
truthy (present and not a falsy value such as the empty string); a choice
whose result is absent, or present but falsy, is skipped with its state
effect kept; and when no choice remains it aborts with the expected-name
error anchored at the current offset. -/
theorem grammar_first_truthy :
    (∀ (A : Type) [Truthy A] (nm : List Char) (c : Parser (Option A))
        (cs : List (Parser (Option A))) (s s' : State) (a : A),
        c s = .ok (s', some a) → Truthy.truthy a = true →
        grammar nm (c :: cs) s = .ok (s', a)) ∧
    (∀ (A : Type) [Truthy A] (nm : List Char) (c : Parser (Option A))
        (cs : List (Parser (Option A))) (s s' : State),
        c s = .ok (s', none) → grammar nm (c :: cs) s = grammar nm cs s') ∧
    (∀ (A : Type) [Truthy A] (nm : List Char) (c : Parser (Option A))
        (cs : List (Parser (Option A))) (s s' : State) (a : A),
        c s = .ok (s', some a) → Truthy.truthy a = false →
        grammar nm (c :: cs) s = grammar nm cs s') ∧
    (∀ (A : Type) [Truthy A] (nm : List Char) (s : State),
        grammar nm ([] : List (Parser (Option A))) s =
          .error (.thrown ("Expected ".toList ++ nm ++ ":\n".toList ++
            highlight s.index (s.index + 1) s.code))) := by
  refine ⟨?_, ?_, ?_, ?_⟩
  · intro A _ nm c cs s s' a hc ht
    simp [grammar, hc, ht]
  · intro A _ nm c cs s s' hc
    simp [grammar, hc]
  · intro A _ nm c cs s s' a hc ht
    simp [grammar, hc, ht]
  · intro A _ nm s
    simp [grammar, expected_type]

/-- Witness for grammar_first_truthy: with the two alternatives guarded by
the literals x and xy, in that order, on the input xy, the first
alternative wins and only its consumption takes effect. -/
theorem grammar_first_truthy_witness :
    grammar "alt".toList
      [guard (match_str "x".toList) (bind (consume "x".toList) fun _ => pure "x".toList),
       guard (match_str "xy".toList) (bind (consume "xy".toList) fun _ => pure "xy".toList)]
      ⟨"xy".toList, 0⟩ = .ok (⟨"xy".toList, 1⟩, "x".toList) :=
  grammar_first_truthy.1 (List Char) "alt".toList
    (guard (match_str "x".toList) (bind (consume "x".toList) fun _ => pure "x".toList))
    [guard (match_str "xy".toList) (bind (consume "xy".toList) fun _ => pure "xy".toList)]
    ⟨"xy".toList, 0⟩ ⟨"xy".toList, 1⟩ "x".toList rfl rfl

/-- Counterexample to claim C6 as stated: caller is not zero-consumption;
on the text f(x it reports true but returns the state advanced past the
identifier and the open literal, which differs from the incoming state. -/
theorem caller_consumes_cex :
    caller "(".toList ⟨"f(x".toList, 0⟩ = .ok (⟨"f(x".toList, 2⟩, true) ∧
    (⟨"f(x".toList, 2⟩ : State) ≠ ⟨"f(x".toList, 0⟩ :=
  ⟨rfl, by decide⟩

/-- Claim C6 (amended): caller reports whether a non-empty identifier
followed immediately by the open literal appears at the cursor, but itself
advances the cursor past the identifier and, when present, the literal;
the zero-consumption probe is its dry wrapper, as used by guard. -/
theorem caller_reports_probe (opener : List Char) (s : State) :
    ∃ b : Bool,
      caller opener s =
        .ok (⟨s.code, s.index + (callerNam s).length +
          (if callerOpen opener s then opener.length else 0)⟩, b) ∧
      dry (caller opener) s = .ok (s, b) ∧
      (b = true ↔ (callerNam s ≠ [] ∧ callerOpen opener s = true)) := by
  have hnam : nameScanAux (s.code.drop s.index) = callerNam s :=
    nameScanAux_eq_takeWhile (s.code.drop s.index)
  refine ⟨decide ((callerNam s).length > 0) && callerOpen opener s, ?_, ?_, ?_⟩
  · by_cases h : callerOpen opener s = true
    · have hc : (s.code.drop (s.index + (callerNam s).length)).take opener.length = opener := by
        simpa [callerOpen] using h
      simp [caller, name_here, match_here, hnam, hc, h]
    · have hc : ¬ (s.code.drop (s.index + (callerNam s).length)).take opener.length = opener := by
        simpa [callerOpen] using h
      simp only [Bool.not_eq_true] at h
      simp [caller, name_here, match_here, hnam, hc, h]
  · by_cases h : callerOpen opener s = true
    · have hc : (s.code.drop (s.index + (callerNam s).length)).take opener.length = opener := by
        simpa [callerOpen] using h
      simp [caller, name_here, match_here, dry, hnam, hc, h]
    · have hc : ¬ (s.code.drop (s.index + (callerNam s).length)).take opener.length = opener := by
        simpa [callerOpen] using h
      simp only [Bool.not_eq_true] at h
      simp [caller, name_here, match_here, dry, hnam, hc, h]
  · simp [List.length_pos, and_comm]

/-- Counterexample to claim C8 as stated: on the input (a the parse does
abort, but rgt is parsed before the closing parenthesis is consumed, and at
end of text the name alternative produces the empty string, a falsy value
that the selector treats as absent; so the thrown diagnostic is the
expected-StrBinTree error of grammar, not the expected-close-parenthesis
error that consume would have produced at the same offset. -/
theorem sbt_on_open_a_cex :
    sbtF 4 ⟨"(a".toList, 0⟩ =
      .error (.thrown ("Expected StrBinTree:\n".toList ++ highlight 2 3 "(a".toList)) ∧
    expected_string (A := StrBinTree) ")".toList ⟨"(a".toList, 2⟩ =
      .error (.thrown ("Expected \')\':\n".toList ++ highlight 2 3 "(a".toList)) ∧
    ("Expected StrBinTree:\n".toList ++ highlight 2 3 "(a".toList ≠
      "Expected \')\':\n".toList ++ highlight 2 3 "(a".toList) :=
  ⟨rfl, rfl, by decide⟩

/-- Claim C8 (amended): parsing the input (a with the binary-tree grammar
aborts with an expected-StrBinTree diagnostic whose highlighted span is
anchored at end of text, offset 2 (span 2 to 3). -/
theorem sbt_on_open_a_aborts_at_eof :
    sbtF 4 ⟨"(a".toList, 0⟩ =
      .error (.thrown ("Expected StrBinTree:\n".toList ++ highlight 2 3 "(a".toList)) :=
  rfl

/-- Claim C10: list runs its opener and separator for their state effect
only and ignores their boolean results: flipping every boolean they return
changes nothing, and concretely, on a, b, c followed by the closer, with the
opener absent from the input (it reports false) and the separator missing
after the last element, list still returns the three elements without
aborting. -/
theorem list_ignores_opener_sep_booleans :
    (∀ (A B : Type) (fuel : Nat) (opener sep closer : Parser Bool) (elem : Parser A)
        (make : List A → B) (s : State),
        listF fuel (flipB opener) (flipB sep) closer elem make s =
          listF fuel opener sep closer elem make s) ∧
    listF 9 (match_str "(".toList) (match_str ",".toList) (match_str ")".toList) name
        (fun l => l) ⟨"a,b,c)".toList, 0⟩ =
      .ok (⟨"a,b,c)".toList, 6⟩, ["a".toList, "b".toList, "c".toList]) := by
  constructor
  · intro A B fuel opener sep closer elem make s
    have hsep : (fun st => match elem st with
        | .error e => .error e
        | .ok (st, val) =>
          match flipB sep st with
          | .error e => .error e
          | .ok (st, _) => .ok (st, val) : Parser A) =
        (fun st => match elem st with
        | .error e => .error e
        | .ok (st, val) =>
          match sep st with
          | .error e => .error e
          | .ok (st, _) => .ok (st, val)) := by
      funext st
      cases he : elem st with
      | error e => rfl
      | ok r =>
        cases r with
        | mk st₁ val =>
          cases hs : sep st₁ with
          | error e => simp [flipB, hs]
          | ok r₂ => cases r₂; simp [flipB, hs]
    cases ho : opener s with
    | error e =>
      have ho' : flipB opener s = .error e := by simp [flipB, ho]
      simp only [listF, ho, ho']
    | ok r =>
      cases r with
      | mk s₁ b =>
        have ho' : flipB opener s = .ok (s₁, !b) := by simp [flipB, ho]
        simp only [listF, ho, ho']
        rw [hsep]
  · rfl

/-! Lemmas about the trivia-skipping loop, leading to claim C4. -/

theorem spaceScanAux_ge : ∀ (l : List Char) (i : Nat), i ≤ spaceScanAux l i := by
  intro l
  induction l with
  | nil => intro i; simp [spaceScanAux]
  | cons c rest ih =>
    intro i
    by_cases h : isJsSpace c = true
    · calc i ≤ i + 1 := by omega
        _ ≤ spaceScanAux rest (i + 1) := ih (i + 1)
        _ = spaceScanAux (c :: rest) i := by simp [spaceScanAux, h]
    · simp only [Bool.not_eq_true] at h
      simp [spaceScanAux, h]

theorem spaceScanAux_le : ∀ (l : List Char) (i : Nat), spaceScanAux l i ≤ i + l.length := by
  intro l
  induction l with
  | nil => intro i; simp [spaceScanAux]
  | cons c rest ih =>
    intro i
    by_cases h : isJsSpace c = true
    · have := ih (i + 1)
      simp only [spaceScanAux, h, if_true, List.length_cons]
      omega
    · simp only [Bool.not_eq_true] at h
      simp [spaceScanAux, h]

theorem commentScanAux_ge : ∀ (l : List Char) (i : Nat), i ≤ commentScanAux l i := by
  intro l
  induction l with
  | nil => intro i; simp [commentScanAux]
  | cons c rest ih =>
    intro i
    by_cases h : c = '\n'
    · simp [commentScanAux, h]
    · calc i ≤ i + 1 := by omega
        _ ≤ commentScanAux rest (i + 1) := ih (i + 1)
        _ = commentScanAux (c :: rest) i := by simp [commentScanAux, h]

theorem commentScanAux_le : ∀ (l : List Char) (i : Nat), commentScanAux l i ≤ i + l.length := by
  intro l
  induction l with
  | nil => intro i; simp [commentScanAux]
  | cons c rest ih =>
    intro i
    by_cases h : c = '\n'
    · simp [commentScanAux, h]
    · have := ih (i + 1)
      simp only [commentScanAux, h, if_false, List.length_cons]
      omega

theorem isSpaceAt_true_lt (code : List Char) (i : Nat) (h : isSpaceAt code i = true) :
    i < code.length := by
  by_contra hge
  push_neg at hge
  unfold isSpaceAt at h
  rw [List.getElem?_eq_none (by omega)] at h
  simp at h

theorem skip_comment_cases (s : State) :
    skip_comment s = (s, false) ∨
    ∃ t : State, skip_comment s = (t, true) ∧ t.code = s.code ∧ s.index < t.index ∧
      t.index ≤ s.code.length := by
  by_cases hc : (s.code.drop s.index).take 2 = ['/', '/']
  · right
    refine ⟨⟨s.code, commentScanAux (s.code.drop (s.index + 2)) (s.index + 2)⟩,
      by simp [skip_comment, hc], rfl, ?_, ?_⟩
    · have hge := commentScanAux_ge (s.code.drop (s.index + 2)) (s.index + 2)
      show s.index < commentScanAux (s.code.drop (s.index + 2)) (s.index + 2)
      omega
    · have hle := commentScanAux_le (s.code.drop (s.index + 2)) (s.index + 2)
      rw [List.length_drop] at hle
      have h2 : 2 ≤ s.code.length - s.index := by
        have hlen := congrArg List.length hc
        rw [List.length_take, List.length_drop] at hlen
        simp at hlen
        omega
      show commentScanAux (s.code.drop (s.index + 2)) (s.index + 2) ≤ s.code.length
      omega
  · left
    simp [skip_comment, hc]

theorem skip_spaces_cases (s : State) :
    skip_spaces s = (s, false) ∨
    ∃ t : State, skip_spaces s = (t, true) ∧ t.code = s.code ∧ s.index < t.index ∧
      t.index ≤ s.code.length := by
  by_cases hsp : isSpaceAt s.code s.index = true
  · right
    have hlt : s.index < s.code.length := isSpaceAt_true_lt s.code s.index hsp
    have hdrop : s.code.drop s.index = s.code[s.index] :: s.code.drop (s.index + 1) :=
      List.drop_eq_getElem_cons hlt
    have hspace : isJsSpace s.code[s.index] = true := by
      unfold isSpaceAt at hsp
      rw [List.getElem?_eq_getElem hlt] at hsp
      exact hsp
    refine ⟨⟨s.code, spaceScanAux (s.code.drop s.index) s.index⟩,
      by simp [skip_spaces, hsp], rfl, ?_, ?_⟩
    · show s.index < spaceScanAux (s.code.drop s.index) s.index
      rw [hdrop]
      simp only [spaceScanAux, hspace, if_true]
      have := spaceScanAux_ge (s.code.drop (s.index + 1)) (s.index + 1)
      omega
    · show spaceScanAux (s.code.drop s.index) s.index ≤ s.code.length
      have hle := spaceScanAux_le (s.code.drop s.index) s.index
      rw [List.length_drop] at hle
      omega
  · left
    simp only [Bool.not_eq_true] at hsp
    have hscan : spaceScanAux (s.code.drop s.index) s.index = s.index := by
      cases hd : s.code.drop s.index with
      | nil => simp [spaceScanAux]
      | cons c rest =>
        have hc : s.code[s.index]? = some c := by
          have h0 : (s.code.drop s.index)[0]? = some c := by rw [hd]; simp
          rw [List.getElem?_drop] at h0
          simpa using h0
        have hns : isJsSpace c = false := by
          unfold isSpaceAt at hsp
          rw [hc] at hsp
          exact hsp
        simp [spaceScanAux, hns]
    simp [skip_spaces, hsp, hscan]

theorem skipGo_fix : ∀ (n : Nat) (s : State), s.code.length + 1 - s.index ≤ n →
    skip_comment ((skipGo n s).1) = ((skipGo n s).1, false) ∧
    skip_spaces ((skipGo n s).1) = ((skipGo n s).1, false) := by
  intro n
  induction n with
  | zero =>
    intro s hs
    have hidx : s.code.length < s.index := by omega
    have hd : s.code.drop s.index = [] := List.drop_eq_nil_of_le (by omega)
    have hsp : isSpaceAt s.code s.index = false := by
      unfold isSpaceAt
      rw [List.getElem?_eq_none (by omega)]
    constructor
    · show skip_comment s = (s, false)
      simp [skip_comment, hd]
    · show skip_spaces s = (s, false)
      simp [skip_spaces, hsp, hd, spaceScanAux]
  | succ n ih =>
    intro s hs
    rcases skip_comment_cases s with hc | ⟨t₁, hc, hcode₁, hlt₁, hle₁⟩
    · rcases skip_spaces_cases s with hsp | ⟨t₂, hsp, hcode₂, hlt₂, hle₂⟩
      · have hred : skipGo (n + 1) s = (s, false) := by
          simp [skipGo, hc, hsp]
        rw [hred]
        exact ⟨hc, hsp⟩
      · have hred : skipGo (n + 1) s = ((skipGo n t₂).1, true) := by
          simp [skipGo, hc, hsp]
        rw [hred]
        apply ih
        rw [hcode₂]
        omega
    · rcases skip_spaces_cases t₁ with hsp | ⟨t₂, hsp, hcode₂, hlt₂, hle₂⟩
      · have hred : skipGo (n + 1) s = ((skipGo n t₁).1, true) := by
          simp [skipGo, hc, hsp]
        rw [hred]
        apply ih
        rw [hcode₁]
        omega
      · have hred : skipGo (n + 1) s = ((skipGo n t₂).1, true) := by
          simp [skipGo, hc, hsp]
        rw [hred]
        apply ih
        rw [hcode₂, hcode₁]
        rw [hcode₁] at hle₂
        omega

/-- Claim C4: skip is idempotent; applying skip to the state produced by a
first application of skip yields that same state again, and the second
application reports that it skipped nothing. -/
theorem skip_idempotent (s : State) : skip ((skip s).1) = ((skip s).1, false) := by
  obtain ⟨h1, h2⟩ := skipGo_fix (s.code.length + 1) s (by omega)
  have h1' : skip_comment ((skip s).1) = ((skip s).1, false) := h1
  have h2' : skip_spaces ((skip s).1) = ((skip s).1, false) := h2
  show skipGo ((skip s).1.code.length + 1) ((skip s).1) = ((skip s).1, false)
  simp [skipGo, h1', h2']

/-! Lemmas for claim C7 about the until loop. -/

theorem match_here_frame (str : List Char) :
    ∀ s s₁ b, match_here str s = .ok (s₁, b) →
      s₁.code = s.code ∧ s.index ≤ s₁.index ∧
      (s.index ≤ s.code.length → s₁.index ≤ s.code.length) := by
  intro s s₁ b h
  unfold match_here at h
  by_cases hc : (s.code.drop s.index).take str.length = str
  · rw [if_pos hc] at h
    simp only [Except.ok.injEq, Prod.mk.injEq] at h
    obtain ⟨hst, hb⟩ := h
    have hidx : s₁.index = s.index + str.length := by rw [← hst]
    have hcode : s₁.code = s.code := by rw [← hst]
    have hlen := congrArg List.length hc
    rw [List.length_take, List.length_drop] at hlen
    exact ⟨hcode, by omega, fun hle => by omega⟩
  · rw [if_neg hc] at h
    simp only [Except.ok.injEq, Prod.mk.injEq] at h
    obtain ⟨hst, hb⟩ := h
    subst hst
    exact ⟨rfl, by omega, fun hle => hle⟩

theorem match_here_no_fuel (str : List Char) :
    ∀ s e, match_here str s = .error e → e ≠ PError.fuel := by
  intro s e h
  unfold match_here at h
  by_cases hc : (s.code.drop s.index).take str.length = str
  · rw [if_pos hc] at h; simp at h
  · rw [if_neg hc] at h; simp at h

theorem readc_frame :
    ∀ s s₂ v, readc s = .ok (s₂, v) →
      s₂.code = s.code ∧ s.index < s₂.index ∧
      (s.index ≤ s.code.length → s₂.index ≤ s.code.length) := by
  intro s s₂ v h
  unfold readc at h
  cases hx : s.code[s.index]? with
  | some c =>
    rw [hx] at h
    simp only [Except.ok.injEq, Prod.mk.injEq] at h
    obtain ⟨hst, hv⟩ := h
    have hidx : s₂.index = s.index + 1 := by rw [← hst]
    have hcode : s₂.code = s.code := by rw [← hst]
    have hlt : s.index < s.code.length := by
      by_contra hge
      push_neg at hge
      rw [List.getElem?_eq_none (by omega)] at hx
      cases hx
    exact ⟨hcode, by omega, fun _ => by omega⟩
  | none => rw [hx] at h; cases h

theorem readc_no_fuel : ∀ s e, readc s = .error e → e ≠ PError.fuel := by
  intro s e h
  unfold readc at h
  cases hx : s.code[s.index]? with
  | some c => rw [hx] at h; cases h
  | none =>
    rw [hx] at h
    simp only [Except.error.injEq] at h
    subst h
    intro hcontra
    cases hcontra

theorem untilF_count {A : Type} (delim : Parser Bool) (elem : Parser A) :
    ∀ (n : Nat) (s s' : State) (l : List A),
      untilF n delim elem s = .ok (s', l) →
      untilCountF n delim elem s = .ok (s', l.length) := by
  intro n
  induction n with
  | zero => intro s s' l h; simp [untilF] at h
  | succ n ih =>
    intro s s' l h
    cases hd : delim s with
    | error e =>
      simp only [untilF, hd] at h
      cases h
    | ok r =>
      cases r with
      | mk s₁ b =>
        cases b with
        | true =>
          simp only [untilF, hd, Except.ok.injEq, Prod.mk.injEq] at h
          obtain ⟨hs', hl⟩ := h
          subst hs'; subst hl
          simp [untilCountF, hd]
        | false =>
          simp only [untilF, hd] at h
          cases he : elem s₁ with
          | error e =>
            simp only [he] at h
            cases h
          | ok r₂ =>
            cases r₂ with
            | mk s₂ a =>
              simp only [he] at h
              cases hu : untilF n delim elem s₂ with
              | error e =>
                simp only [hu] at h
                cases h
              | ok r₃ =>
                cases r₃ with
                | mk s₃ l' =>
                  simp only [hu, Except.ok.injEq, Prod.mk.injEq] at h
                  obtain ⟨hs', hl⟩ := h
                  subst hs'; subst hl
                  have hcount := ih s₂ s₃ l' hu
                  simp [untilCountF, hd, he, hcount]

theorem untilF_stable {A : Type} (delim : Parser Bool) (elem : Parser A)
    (Hd : ∀ s s₁ b, delim s = .ok (s₁, b) →
      s₁.code = s.code ∧ s.index ≤ s₁.index ∧
      (s.index ≤ s.code.length → s₁.index ≤ s.code.length))
    (Hde : ∀ s e, delim s = .error e → e ≠ PError.fuel)
    (He : ∀ s s₂ v, elem s = .ok (s₂, v) →
      s₂.code = s.code ∧ s.index < s₂.index ∧
      (s.index ≤ s.code.length → s₂.index ≤ s.code.length))
    (Hee : ∀ s e, elem s = .error e → e ≠ PError.fuel) :
    ∀ (k : Nat) (s : State), s.code.length - s.index = k → s.index ≤ s.code.length →
      ∀ n m, s.code.length + 1 - s.index ≤ n → s.code.length + 1 - s.index ≤ m →
        untilF n delim elem s = untilF m delim elem s ∧
        (∀ e, untilF n delim elem s = .error e → e ≠ PError.fuel) := by
  intro k
  induction k using Nat.strong_induction_on with
  | _ k IH =>
    intro s hk hs n m hn hm
    obtain ⟨n', rfl⟩ : ∃ j, n = j + 1 := ⟨n - 1, by omega⟩
    obtain ⟨m', rfl⟩ : ∃ j, m = j + 1 := ⟨m - 1, by omega⟩
    cases hd : delim s with
    | error e =>
      refine ⟨by simp [untilF, hd], ?_⟩
      intro e₂ he₂
      simp only [untilF, hd, Except.error.injEq] at he₂
      subst he₂
      exact Hde s _ hd
    | ok r =>
      cases r with
      | mk s₁ b =>
        cases b with
        | true =>
          refine ⟨by simp [untilF, hd], ?_⟩
          intro e₂ he₂
          simp [untilF, hd] at he₂
        | false =>
          cases he : elem s₁ with
          | error e =>
            refine ⟨by simp [untilF, hd, he], ?_⟩
            intro e₂ he₂
            simp only [untilF, hd, he, Except.error.injEq] at he₂
            subst he₂
            exact Hee s₁ _ he
          | ok r₂ =>
            cases r₂ with
            | mk s₂ a =>
              obtain ⟨hc₁, hi₁, hb₁⟩ := Hd s s₁ false hd
              obtain ⟨hc₂, hi₂, hb₂⟩ := He s₁ s₂ a he
              have hlen₁ : s₁.code.length = s.code.length := by rw [hc₁]
              have hlen₂ : s₂.code.length = s.code.length := by rw [hc₂, hc₁]
              have hs₁ : s₁.index ≤ s₁.code.length := by
                have := hb₁ hs
                omega
              have hs₂ : s₂.index ≤ s₂.code.length := by
                have := hb₂ (by omega)
                omega
              have hmeas : s₂.code.length - s₂.index < k := by omega
              obtain ⟨hstab, hnf⟩ := IH (s₂.code.length - s₂.index) hmeas s₂ rfl hs₂
                n' m' (by omega) (by omega)
              constructor
              · simp only [untilF, hd, he, hstab]
              · intro e₂ he₂
                simp only [untilF, hd, he] at he₂
                cases hu : untilF n' delim elem s₂ with
                | error e₃ =>
                  simp only [hu, Except.error.injEq] at he₂
                  subst he₂
                  exact hnf _ hu
                | ok r₃ =>
                  cases r₃ with
                  | mk s₃ l => simp [hu] at he₂

/-- Counterexample to claim C7 as stated: until does not terminate for every
delimiter and element parser; with a delimiter that always reports false
without consuming and an element that consumes nothing, the recursion never
returns, which the embedding shows as fuel exhaustion at every fuel value. -/
theorem until_diverges_cex :
    untilF 1000 (fun st => Except.ok (st, false)) (fun st => Except.ok (st, ()))
        ⟨[], 0⟩ = .error PError.fuel ∧
    (∀ n, untilF n (fun st => Except.ok (st, false)) (fun st => Except.ok (st, ()))
        ⟨[], 0⟩ = .error PError.fuel) := by
  have key : ∀ n, untilF n (fun st => Except.ok (st, false))
      (fun st => Except.ok (st, ())) ⟨[], 0⟩ = .error PError.fuel := by
    intro n
    induction n with
    | zero => rfl
    | succ n ih => simp [untilF, ih]
  exact ⟨key 1000, key⟩

/-- Claim C7 (amended): whenever the delimiter keeps the cursor inside the
text without moving it backwards and the element parser strictly advances it
(and neither is itself an out-of-fuel artefact), until terminates: its value
is independent of any sufficient fuel, it is never fuel exhaustion, the
sequence it returns has exactly one entry per element-parser application (the
instrumented count), and when the delimiter matches immediately it returns
the empty sequence with only the delimiter's state effect. -/
theorem until_terminates (A : Type) (delim : Parser Bool) (elem : Parser A)
    (Hd : ∀ s s₁ b, delim s = .ok (s₁, b) →
      s₁.code = s.code ∧ s.index ≤ s₁.index ∧
      (s.index ≤ s.code.length → s₁.index ≤ s.code.length))
    (Hde : ∀ s e, delim s = .error e → e ≠ PError.fuel)
    (He : ∀ s s₂ v, elem s = .ok (s₂, v) →
      s₂.code = s.code ∧ s.index < s₂.index ∧
      (s.index ≤ s.code.length → s₂.index ≤ s.code.length))
    (Hee : ∀ s e, elem s = .error e → e ≠ PError.fuel)
    (s : State) (hs : s.index ≤ s.code.length) :
    (∀ n, s.code.length + 1 - s.index ≤ n →
        untilF n delim elem s = untilF (s.code.length + 1 - s.index) delim elem s) ∧
    (∀ e, untilF (s.code.length + 1 - s.index) delim elem s = .error e →
        e ≠ PError.fuel) ∧
    (∀ n s' l, untilF n delim elem s = .ok (s', l) →
        untilCountF n delim elem s = .ok (s', l.length)) ∧
    (∀ s₁, delim s = .ok (s₁, true) →
        untilF (s.code.length + 1 - s.index) delim elem s = .ok (s₁, [])) := by
  refine ⟨?_, ?_, ?_, ?_⟩
  · intro n hn
    exact (untilF_stable delim elem Hd Hde He Hee (s.code.length - s.index) s rfl hs
      n (s.code.length + 1 - s.index) hn (by omega)).1
  · intro e he
    exact (untilF_stable delim elem Hd Hde He Hee (s.code.length - s.index) s rfl hs
      (s.code.length + 1 - s.index) (s.code.length + 1 - s.index)
      (by omega) (by omega)).2 e he
  · intro n s' l h
    exact untilF_count delim elem n s s' l h
  · intro s₁ hd
    obtain ⟨b', hb'⟩ : ∃ b', s.code.length + 1 - s.index = b' + 1 :=
      ⟨s.code.length - s.index, by omega⟩
    rw [hb']
    simp [untilF, hd]

/-- Witness for until_terminates: reading single characters until a closing
parenthesis on the text ab) terminates with a fuel-independent result; the
theorem's hypotheses hold for the anchored literal matcher as delimiter and
the strict single-character reader as element. -/
theorem until_terminates_witness :
    (∀ n, 4 ≤ n → untilF n (match_here ")".toList) readc ⟨"ab)".toList, 0⟩ =
        untilF 4 (match_here ")".toList) readc ⟨"ab)".toList, 0⟩) ∧
    (∀ e, untilF 4 (match_here ")".toList) readc ⟨"ab)".toList, 0⟩ = .error e →
        e ≠ PError.fuel) ∧
    (∀ n s' l, untilF n (match_here ")".toList) readc ⟨"ab)".toList, 0⟩ = .ok (s', l) →
        untilCountF n (match_here ")".toList) readc ⟨"ab)".toList, 0⟩ = .ok (s', l.length)) ∧
    (∀ s₁, match_here ")".toList ⟨"ab)".toList, 0⟩ = .ok (s₁, true) →
        untilF 4 (match_here ")".toList) readc ⟨"ab)".toList, 0⟩ = .ok (s₁, [])) :=
  until_terminates Char (match_here ")".toList) readc
    (match_here_frame ")".toList) (match_here_no_fuel ")".toList)
    readc_frame readc_no_fuel ⟨"ab)".toList, 0⟩ (by decide)

/-! Lemmas for claim C9 about the highlighter. -/

theorem hlGo_eq_render (fl tl : Nat) :
    ∀ (ls : List (List Char)) (numb : Nat),
      hlGo fl tl numb ls =
        ((ls.enumFrom numb).map
          (fun p => fmt4 p.1 ++ " | ".toList ++ hl_render fl tl p.1 (p.2 ++ ['\n']))).flatten := by
  intro ls
  induction ls with
  | nil => intro numb; rfl
  | cons l rest ih =>
    intro numb
    simp only [hlGo, hl_render, List.enumFrom_cons, List.map_cons, List.flatten_cons, ih]

/-- Claim C9: the diagnostic produced by highlight consists of exactly the
lines of the marker-inserted text from three lines before the span's first
line (clamped at the start) through three lines after the span's last line
(clamped at the end of the text), in order; each retained line carries the
per-line span emphasis and is prefixed with the right-aligned four-character
line number followed by a separator. -/
theorem highlight_window_lines (f t : Nat) (code : List Char) :
    highlight f t code =
      (((((splitNl (hl_colored f t code)).drop (hl_from_line f code - 3)).take
          (min (hl_from_line t code + 3) (splitNl (hl_colored f t code)).length -
            (hl_from_line f code - 3))).enumFrom (hl_from_line f code - 3)).map
        (fun p => fmt4 p.1 ++ " | ".toList ++
          hl_render (hl_from_line f code) (hl_from_line t code) p.1 (p.2 ++ ['\n']))).flatten := by
  simp only [highlight]
  exact hlGo_eq_render (hl_from_line f code) (hl_from_line t code) _ _
